import Mathlib

/-!
Verification of the matching-and-encoding core of the AsMacro x86-64
assembler.  The Rust sources are shallowly embedded: strings become
`List Char`, machine integers become `Nat`/`Int` with explicit wrapping
where the source wraps, and fallible functions return `Option`.
Functions keep the names of the Rust functions they embed.  Components
that are not among the provided sources (the `Register` module, the
static `INSTRUCTION_LIST`, the `is_keyword` predicate, the `Rel8`/`Rel16`
operand types) are modelled from the specification and marked as such.
-/

set_option maxRecDepth 10000

/-! ## Character and string primitives (Rust `str` operations) -/

/-- Rust `char::is_whitespace`, restricted to the ASCII whitespace
characters that can actually occur in assembly source lines. -/
def is_whitespace_char (c : Char) : Bool :=
  c = ' ' || c = '\t' || c = '\n' || c = '\r'

/-- Leading-whitespace removal, as in Rust `str::trim_start`. -/
def trimLeft (s : List Char) : List Char := s.dropWhile is_whitespace_char

/-- Trailing-whitespace removal, as in Rust `str::trim_end`. -/
def trimRight : List Char → List Char
  | [] => []
  | c :: t =>
    match trimRight t with
    | [] => if is_whitespace_char c then [] else [c]
    | r :: rs => c :: r :: rs

/-- Rust `str::trim`. -/
def trim (s : List Char) : List Char := trimRight (trimLeft s)

/-- Rust `str::split(sep)`: splits on every occurrence of `sep`,
keeping empty pieces; always returns at least one piece. -/
def splitOnChar (sep : Char) : List Char → List (List Char)
  | [] => [[]]
  | c :: rest =>
    if c = sep then [] :: splitOnChar sep rest
    else
      match splitOnChar sep rest with
      | [] => [[c]]
      | h :: t => (c :: h) :: t

/-- Rust `str::split_once(sep)`: splits at the first occurrence of
`sep`, or fails when `sep` does not occur. -/
def split_once (sep : Char) : List Char → Option (List Char × List Char)
  | [] => none
  | c :: rest =>
    if c = sep then some ([], rest)
    else
      match split_once sep rest with
      | some (a, b) => some (c :: a, b)
      | none => none

/-- Rust `str::starts_with(c)` for a single character. -/
def starts_with (c : Char) : List Char → Bool
  | [] => false
  | x :: _ => x = c

/-- Rust `str::ends_with(c)` for a single character. -/
def ends_with (c : Char) (s : List Char) : Bool :=
  match s.getLast? with
  | some x => x = c
  | none => false

/-- Embeds `remove_prefix` from `util/src/functions.rs`: checked split
at the length of the parameter list, then comparison with it. -/
def removePrefixChars (s p : List Char) : Option (List Char) :=
  if p.length ≤ s.length then
    if s.take p.length = p then some (s.drop p.length) else none
  else none

/-- Rust `char::to_ascii_lowercase`. -/
def to_ascii_lowercase (c : Char) : Char :=
  if 'A' ≤ c && c ≤ 'Z' then Char.ofNat (c.toNat + 32) else c

/-! ## Numeric literal parser (`util/src/functions.rs`) -/

/-- Digit alphabet of the binary parser, as the array in the source. -/
def bin_digits : List Char := "01".toList

/-- Digit alphabet of the octal parser, as the array in the source. -/
def oct_digits : List Char := "01234567".toList

/-- Digit alphabet of the decimal parser, as the array in the source. -/
def dec_digits : List Char := "0123456789".toList

/-- Digit alphabet of the hexadecimal parser, as the array in the source. -/
def hex_digits : List Char := "0123456789abcdef".toList

/-- Index of the first occurrence of `c` in the digit alphabet, as the
inner scan of `stoi_helper` computes it. -/
def digit_index : List Char → Char → Option Nat
  | [], _ => none
  | d :: rest, c =>
    if c = d then some 0
    else
      match digit_index rest c with
      | some i => some (i + 1)
      | none => none

/-- One more than `usize::MAX`: the modulus of 64-bit machine words. -/
def usizeMod : Nat := 18446744073709551616

/-- The accumulation loop of `stoi_helper`: for each lowercased
character, `checked_mul` by the alphabet size (`None` on overflow),
then the digit index is added with Rust release-mode wrapping
semantics (the source's `num += i` is not overflow-checked). -/
def stoi_helper_go (digits : List Char) : Nat → List Char → Option Nat
  | num, [] => some num
  | num, c :: rest =>
    if num * digits.length < usizeMod then
      match digit_index digits (to_ascii_lowercase c) with
      | some i => stoi_helper_go digits ((num * digits.length + i) % usizeMod) rest
      | none => none
    else none

/-- Embeds `stoi_helper(s, n)`. -/
def stoi_helper (s n : List Char) : Option Nat := stoi_helper_go n 0 s

/-- Embeds `stoi_binary`. -/
def stoi_binary (s : List Char) : Option Nat :=
  match removePrefixChars s ['0', 'b'] with
  | some r => stoi_helper r bin_digits
  | none => none

/-- Embeds `stoi_octal`. -/
def stoi_octal (s : List Char) : Option Nat :=
  match removePrefixChars s ['0', 'o'] with
  | some r => stoi_helper r oct_digits
  | none => none

/-- Embeds `stoi_decimal`. -/
def stoi_decimal (s : List Char) : Option Nat :=
  stoi_helper s dec_digits

/-- Embeds `stoi_hex`. -/
def stoi_hex (s : List Char) : Option Nat :=
  match removePrefixChars s ['0', 'x'] with
  | some r =>
    stoi_helper r hex_digits
  | none => none

/-- Fuel-indexed driver for `stoi`.  The source `stoi` recurses into
itself through `stoi_minus` (which strips one leading minus sign and
trims); each round strictly shortens the string, so a fuel of one more
than the string length is always sufficient.  The fuel only makes the
recursion structural; the branch order (minus, octal, decimal, hex,
binary) is the order of the `stoi_func` array in the source. -/
def stoiF : Nat → List Char → Option Nat
  | 0, _ => none
  | f + 1, s =>
    match
      (match removePrefixChars s ['-'] with
       | some r => stoiF f (trim r)
       | none => none) with
    | some n => some n
    | none =>
      match stoi_octal s with
      | some n => some n
      | none =>
        match stoi_decimal s with
        | some n => some n
        | none =>
          match stoi_hex s with
          | some n => some n
          | none => stoi_binary s

/-- Embeds `stoi`. -/
def stoi (s : List Char) : Option Nat := stoiF (s.length + 1) s

/-- Embeds `stoi_minus`: strip one leading `-`, trim, and parse the
remainder with `stoi`.  Note that no negation is applied: the result is
the unsigned magnitude of the remainder. -/
def stoi_minus (s : List Char) : Option Nat :=
  match removePrefixChars s ['-'] with
  | some r => stoi (trim r)
  | none => none

/-! Sanity checks against the doc examples of `stoi` in the source. -/

example : stoi "1328".toList = some 1328 := by decide
example : stoi "0xa639f3e".toList = some 0xa639f3e := by decide
example : stoi "0b101101110101010".toList = some 0b101101110101010 := by decide
example : stoi "0o116672".toList = some 0o116672 := by decide
example : stoi "-5".toList = some 5 := by decide
example : stoi "abc".toList = none := by decide

/-! ## Register model

Modelled from the spec: the `Register` module is an external
collaborator of the provided sources (spec §3, §6): a closed set of
named architectural registers, each statically associated with exactly
one bit-width class (8/16/32/64), with parse-from-text and four width
predicates.  The standard x86-64 base register file is used, with the
names appearing in the spec's examples (`rax`, `rbx`, `rcx`, `rbp`,
`rdi`, ...). -/

/-- Modelled from the spec: the closed set of architectural registers
(spec §3 "Register"); one constructor per register name, eight names
for each of the four width classes. -/
inductive Register where
  | rax | rcx | rdx | rbx | rsp | rbp | rsi | rdi
  | eax | ecx | edx | ebx | esp | ebp | esi | edi
  | ax | cx | dx | bx | sp | bp | si | di
  | al | cl | dl | bl | spl | bpl | sil | dil
  deriving DecidableEq, Repr, Fintype

/-- Modelled from the spec: the textual name of each register. -/
def reg_name : Register → List Char
  | .rax => "rax".toList | .rcx => "rcx".toList | .rdx => "rdx".toList
  | .rbx => "rbx".toList | .rsp => "rsp".toList | .rbp => "rbp".toList
  | .rsi => "rsi".toList | .rdi => "rdi".toList
  | .eax => "eax".toList | .ecx => "ecx".toList | .edx => "edx".toList
  | .ebx => "ebx".toList | .esp => "esp".toList | .ebp => "ebp".toList
  | .esi => "esi".toList | .edi => "edi".toList
  | .ax => "ax".toList | .cx => "cx".toList | .dx => "dx".toList
  | .bx => "bx".toList | .sp => "sp".toList | .bp => "bp".toList
  | .si => "si".toList | .di => "di".toList
  | .al => "al".toList | .cl => "cl".toList | .dl => "dl".toList
  | .bl => "bl".toList | .spl => "spl".toList | .bpl => "bpl".toList
  | .sil => "sil".toList | .dil => "dil".toList

/-- Modelled from the spec: the list of all registers, used by the
name lookup of `parse_register`. -/
def register_list : List Register :=
  [.rax, .rcx, .rdx, .rbx, .rsp, .rbp, .rsi, .rdi,
   .eax, .ecx, .edx, .ebx, .esp, .ebp, .esi, .edi,
   .ax, .cx, .dx, .bx, .sp, .bp, .si, .di,
   .al, .cl, .dl, .bl, .spl, .bpl, .sil, .dil]

/-- Modelled from the spec: `Register::from_str` — exact-name lookup
(spec §6 "Register module: parse(text)"). -/
def parse_register (s : List Char) : Option Register :=
  (register_list.find? (fun r => reg_name r = s))

/-- Modelled from the spec: the 8-bit width predicate. -/
def Register.is_8bit : Register → Bool
  | .al | .cl | .dl | .bl | .spl | .bpl | .sil | .dil => true
  | _ => false

/-- Modelled from the spec: the 16-bit width predicate. -/
def Register.is_16bit : Register → Bool
  | .ax | .cx | .dx | .bx | .sp | .bp | .si | .di => true
  | _ => false

/-- Modelled from the spec: the 32-bit width predicate. -/
def Register.is_32bit : Register → Bool
  | .eax | .ecx | .edx | .ebx | .esp | .ebp | .esi | .edi => true
  | _ => false

/-- Modelled from the spec: the 64-bit width predicate. -/
def Register.is_64bit : Register → Bool
  | .rax | .rcx | .rdx | .rbx | .rsp | .rbp | .rsi | .rdi => true
  | _ => false

example : ∀ r : Register, parse_register (reg_name r) = some r := by decide

/-! ## Operand types and matching (`new/asm/src/instruction/mod.rs`) -/

/-- Embeds `OperandSize`. -/
inductive OperandSize where
  | Ob | Ow | Od | Oq
  deriving DecidableEq, Repr

/-- Embeds `ModRmRule`. -/
inductive ModRmRule where
  | R
  | Dight (d : Nat)
  deriving DecidableEq, Repr

/-- Embeds `ImmRule`. -/
inductive ImmRule where
  | Ib | Iw | Id | Iq
  deriving DecidableEq, Repr

/-- Embeds `AddRegRule`. -/
inductive AddRegRule where
  | Rb | Rw | Rd | Rq
  deriving DecidableEq, Repr

/-- Embeds `OperandType`.  The variants `Rel8` and `Rel16` do not occur
in the provided `new/asm/src/instruction/mod.rs`, but are referenced by
`asm/src/line.rs` (whose own instruction module is not among the
sources); they are modelled from the spec (§4.6). -/
inductive OperandType where
  | Rel8 | Rel16 | Rel32
  | R8 | R16 | R32 | R64
  | Imm8 | Imm16 | Imm32 | Imm64
  | Rm8 | Rm16 | Rm32 | Rm64
  deriving DecidableEq, Repr

/-- Embeds `number_match_with`: the token must parse via `stoi` and the
value must lie in the inclusive range `[min, max]`. -/
def number_match_with (expr : List Char) (min max : Int) : Bool :=
  match stoi expr with
  | some value => decide (min ≤ (value : Int)) && decide ((value : Int) ≤ max)
  | none => false

/-- Embeds `register_match_with`: the token must parse as a register
satisfying the width predicate. -/
def register_match_with (expr : List Char) (p : Register → Bool) : Bool :=
  match parse_register expr with
  | some r => p r
  | none => false

/-- Embeds `parse_rm`: parses `disp[base]`, `disp[base,index]` or
`disp[base,index,scale]` (displacement optional, scale defaulting
to 1).  Fields after the third are ignored, as in the source. -/
def parse_rm (expr : List Char) : Option (Int × Register × Option (Register × Nat)) :=
  let dispOpt : Option Int :=
    if !starts_with '[' expr then
      match split_once '[' expr with
      | none => none
      | some (before, _) =>
        match stoi before with
        | none => none
        | some value =>
          if -9223372036854775808 ≤ (value : Int) ∧ (value : Int) ≤ 9223372036854775807 then
            some (value : Int)
          else none
    else some 0
  match dispOpt with
  | none => none
  | some disp =>
    match split_once '[' expr with
    | none => none
    | some (_, after) =>
      let e := trim after
      if !ends_with ']' e then none
      else
        match splitOnChar ',' e.dropLast with
        | [] => none
        | baseStr :: rest =>
          match parse_register baseStr with
          | none => none
          | some base =>
            match rest with
            | [] => some (disp, base, none)
            | indexStr :: rest2 =>
              match parse_register indexStr with
              | none => none
              | some index =>
                match rest2 with
                | [] => some (disp, base, some (index, 1))
                | scaleStr :: _ =>
                  match stoi scaleStr with
                  | none => none
                  | some value =>
                    if value = 1 ∨ value = 2 ∨ value = 4 ∨ value = 8 then
                      some (disp, base, some (index, value))
                    else none

/-- Embeds `rm_match_with`: a bare register of the right width, or a
memory operand whose base (and index, if present) satisfies the width
predicate and whose displacement lies in `[min, max]`. -/
def rm_match_with (expr : List Char) (p : Register → Bool) (min max : Int) : Bool :=
  if register_match_with expr p then true
  else
    match parse_rm (trim expr) with
    | none => false
    | some (disp, base, idx) =>
      (p base &&
        (match idx with
         | some (i, _) => p i
         | none => true)) &&
      (decide (min ≤ disp) && decide (disp ≤ max))

/-- Embeds `OperandType::size`. -/
def OperandType.size : OperandType → OperandSize
  | .Rel8 => .Ob
  | .Rel16 => .Ow
  | .Rel32 => .Od
  | .R8 => .Ob
  | .R16 => .Ow
  | .R32 => .Od
  | .R64 => .Oq
  | .Imm8 => .Ob
  | .Imm16 => .Ow
  | .Imm32 => .Od
  | .Imm64 => .Oq
  | .Rm8 => .Ob
  | .Rm16 => .Ow
  | .Rm32 => .Od
  | .Rm64 => .Oq

/-- Embeds `OperandType::match_with`.  The `Rel8`/`Rel16` cases are
modelled from the spec after the `Rel32` case of the source. -/
def OperandType.match_with : OperandType → List Char → Bool
  | .Rel8, expr => number_match_with expr (-128) 127
  | .Rel16, expr => number_match_with expr (-32768) 32767
  | .Rel32, expr => number_match_with expr (-2147483648) 2147483647
  | .R8, expr => register_match_with expr Register.is_8bit
  | .R16, expr => register_match_with expr Register.is_16bit
  | .R32, expr => register_match_with expr Register.is_32bit
  | .R64, expr => register_match_with expr Register.is_64bit
  | .Imm8, expr => number_match_with expr (-128) 255
  | .Imm16, expr => number_match_with expr (-32768) 65535
  | .Imm32, expr => number_match_with expr (-2147483648) 4294967295
  | .Imm64, expr => number_match_with expr (-9223372036854775808) 18446744073709551615
  | .Rm8, expr => rm_match_with expr Register.is_8bit (-128) 127
  | .Rm16, expr => rm_match_with expr Register.is_16bit (-32768) 32767
  | .Rm32, expr => rm_match_with expr Register.is_32bit (-2147483648) 2147483647
  | .Rm64, expr => rm_match_with expr Register.is_64bit (-9223372036854775808) 9223372036854775807

example : OperandType.match_with .Rm64 "0[rax,rbx,4]".toList = true := by decide
example : OperandType.match_with .Rm32 "0[rax,rbx,4]".toList = false := by decide
example : OperandType.match_with .Rm32 "eax".toList = true := by decide
example : OperandType.match_with .Imm8 "-129".toList = true := by decide
example : parse_rm "0[rax,rbx,4,rcx]".toList = some (0, .rax, some (.rbx, 4)) := by decide

/-! ## Lines, expressions, and the instruction table -/

/-- Embeds `Line` from `asm/src/line.rs`. -/
inductive Line where
  | None
  | Label (s : List Char)
  | AsmCommand (s : List Char)
  | Instruction (s : List Char)
  | Unknown (s : List Char)
  deriving DecidableEq, Repr

/-- Embeds `Line::split_instruction`: trim the text, split on single
spaces, take the first token as the mnemonic and up to two further
tokens as operands; fail when a fourth token exists or when the line is
not an `Instruction`. -/
def Line.split_instruction : Line → Option (List Char × (Option (List Char) × Option (List Char)))
  | Line.Instruction s =>
    match splitOnChar ' ' (trim s) with
    | [] => none
    | [m] => some (m, (none, none))
    | [m, o1] => some (m, (some o1, none))
    | [m, o1, o2] => some (m, (some o1, some o2))
    | _ :: _ :: _ :: _ :: _ => none
  | _ => none

/-- Embeds `Line::mnemonic`. -/
def Line.mnemonic (line : Line) : Option (List Char) :=
  (line.split_instruction).map (fun x => x.1)

/-- Embeds `Line::operands`. -/
def Line.operands (line : Line) : Option (Option (List Char) × Option (List Char)) :=
  (line.split_instruction).map (fun x => x.2)

/-- Embeds `Expression`: a mnemonic together with the two operand-type
slots (`None` meaning the slot is not declared). -/
structure Expression where
  mnemonic : List Char
  operands : Option OperandType × Option OperandType
  deriving DecidableEq, Repr

/-- Embeds `Expression::mnemonic_match_with`. -/
def Expression.mnemonic_match_with (e : Expression) (line : Line) : Bool :=
  line.mnemonic = some e.mnemonic

/-- One iteration of the slot loop of `Expression::operands_match_with`:
an undeclared slot imposes no condition; a declared slot requires the
corresponding token to exist and to satisfy the declared type. -/
def slot_match : Option OperandType → Option (List Char) → Bool
  | none, _ => true
  | some _, none => false
  | some t, some tok => t.match_with tok

/-- Embeds `Expression::operands_match_with`. -/
def Expression.operands_match_with (e : Expression) (line : Line) : Bool :=
  match line.operands with
  | none => false
  | some ops => slot_match e.operands.1 ops.1 && slot_match e.operands.2 ops.2

/-- Embeds `Expression::match_with`. -/
def Expression.match_with (e : Expression) (line : Line) : Bool :=
  e.mnemonic_match_with line && e.operands_match_with line

/-- Embeds `Expression::get_operand_index_by_type`. -/
def Expression.get_operand_index_by_type (e : Expression) (t : OperandType) : Option Nat :=
  if e.operands.1 = some t then some 0
  else if e.operands.2 = some t then some 1
  else none

/-- Embeds `EncodingRule` (the opcode is a byte list of length at
most 3, standing for the source's `SVec<3, u8>`). -/
structure EncodingRule where
  opecode : List Nat
  modrm : Option ModRmRule
  imm : Option ImmRule
  addreg : Option AddRegRule
  default_operand_size : OperandSize
  deriving DecidableEq, Repr

/-- Embeds `Instruction`. -/
structure Instruction where
  encoding : EncodingRule
  expression : Expression
  deriving DecidableEq, Repr

/-- Embeds `Instruction::match_with`. -/
def Instruction.match_with (i : Instruction) (line : Line) : Bool :=
  i.expression.match_with line

/-- Modelled from the spec: the static instruction table
(`instruction_database`) is not among the provided sources; this is the
illustrative four-row table of spec §8 (`MOV R64 Imm64`, `PUSH R64`,
`JMP Rel32`, `ADD Rm64 R64`), with plausible encoding metadata.  Only
its declared order and expressions matter to the verified claims. -/
def INSTRUCTION_LIST : List Instruction :=
  [⟨⟨[0xb8], none, some .Iq, some .Rq, .Od⟩, ⟨"mov".toList, (some .R64, some .Imm64)⟩⟩,
   ⟨⟨[0x50], none, none, some .Rq, .Oq⟩, ⟨"push".toList, (some .R64, none)⟩⟩,
   ⟨⟨[0xe9], none, some .Id, none, .Od⟩, ⟨"jmp".toList, (some .Rel32, none)⟩⟩,
   ⟨⟨[0x01], some .R, none, none, .Od⟩, ⟨"add".toList, (some .Rm64, some .R64)⟩⟩]

/-- Embeds `Line::get_instruction`: scan the static table in declared
order and return the first matching entry. -/
def Line.get_instruction (line : Line) :=
  INSTRUCTION_LIST.find? (fun i => i.match_with line)

/-- Embeds `Line::get_operand_by_type`: locate the slot declared with
the requested type in the matched instruction and return the token at
that slot. -/
def Line.get_operand_by_type (line : Line) (t : OperandType) : Option (List Char) :=
  match line.get_instruction with
  | none => none
  | some instr =>
    match instr.expression.get_operand_index_by_type t with
    | none => none
    | some i =>
      match line.operands with
      | none => none
      | some ops => if i = 0 then ops.1 else ops.2

/-- Embeds `Relocation` from `asm/src/functions.rs` (declared outside
the provided sources but fully described by the spec §3): either a
resolved literal or a symbolic label reference. -/
inductive Relocation (α : Type) where
  | Value (n : α)
  | Label (name : List Char)
  deriving DecidableEq, Repr

/-- Modelled from the spec: the keyword/identifier validator
`is_keyword` (spec §6) is an external collaborator; it is modelled as
the usual identifier shape (a letter or underscore followed by letters,
digits or underscores). -/
def is_keyword (s : List Char) : Bool :=
  match s with
  | [] => false
  | c :: rest => (c.isAlpha || c = '_') && rest.all (fun d => d.isAlphanum || d = '_')

/-- The `or_else` chain of `Line::imm_operand` that selects the token
of the first slot declared with an immediate or relative type, in the
source's order `Imm8, Imm16, Imm32, Imm64, Rel8, Rel16, Rel32`. -/
def Line.imm_operand_token (line : Line) : Option (List Char) :=
  (line.get_operand_by_type .Imm8).orElse fun _ =>
    (line.get_operand_by_type .Imm16).orElse fun _ =>
      (line.get_operand_by_type .Imm32).orElse fun _ =>
        (line.get_operand_by_type .Imm64).orElse fun _ =>
          (line.get_operand_by_type .Rel8).orElse fun _ =>
            (line.get_operand_by_type .Rel16).orElse fun _ =>
              line.get_operand_by_type .Rel32

/-- Embeds `Line::imm_operand`: the selected token is first tried as a
numeric literal, then against the keyword predicate.  The source
panics (`expect("invalid input")`) when no immediate slot exists; that
branch is modelled as `none`. -/
def Line.imm_operand (line : Line) : Option (Relocation Nat) :=
  match line.imm_operand_token with
  | none => none
  | some operand =>
    match stoi operand with
    | some n => some (Relocation.Value n)
    | none => if is_keyword operand then some (Relocation.Label operand) else none

example : Line.get_instruction (Line.Instruction "push rax".toList) =
    some ⟨⟨[0x50], none, none, some .Rq, .Oq⟩, ⟨"push".toList, (some .R64, none)⟩⟩ := by decide
example : Line.imm_operand (Line.Instruction "mov rax 1000".toList) =
    some (Relocation.Value 1000) := by decide
example : Line.imm_operand (Line.Instruction "jmp 5".toList) =
    some (Relocation.Value 5) := by decide
example : Line.split_instruction (Line.Instruction "mov rax rbx rcx".toList) = none := by decide

/-! ## Basic lemmas about the string primitives -/

theorem trimLeft_length_le (s : List Char) : (trimLeft s).length ≤ s.length := by
  induction s with
  | nil => simp [trimLeft]
  | cons c t ih =>
    by_cases h : is_whitespace_char c
    · simp only [trimLeft, List.dropWhile] at ih ⊢
      rw [h]
      simpa using Nat.le_succ_of_le ih
    · simp only [trimLeft, List.dropWhile] at ih ⊢
      rw [Bool.not_eq_true] at h
      rw [h]

theorem trimRight_length_le (s : List Char) : (trimRight s).length ≤ s.length := by
  induction s with
  | nil => simp [trimRight]
  | cons c t ih =>
    simp only [trimRight]
    match htr : trimRight t with
    | [] =>
      by_cases h : is_whitespace_char c <;> simp [h, Nat.succ_le_succ, Nat.zero_le]
    | r :: rs =>
      rw [htr] at ih
      simpa using Nat.succ_le_succ ih

theorem trim_length_le (s : List Char) : (trim s).length ≤ s.length := by
  exact le_trans (trimRight_length_le (trimLeft s)) (trimLeft_length_le s)

theorem removePrefixChars_some {s p r : List Char}
    (h : removePrefixChars s p = some r) :
    p.length ≤ s.length ∧ s.take p.length = p ∧ r = s.drop p.length := by
  unfold removePrefixChars at h
  split at h
  · split at h
    · exact ⟨by assumption, by assumption, (Option.some_inj.mp h).symm⟩
    · exact absurd h (by simp)
  · exact absurd h (by simp)

theorem removePrefixChars_some_length {s p r : List Char}
    (h : removePrefixChars s p = some r) : r.length + p.length = s.length := by
  obtain ⟨hle, _, hr⟩ := removePrefixChars_some h
  subst hr
  simp [Nat.sub_add_cancel hle]

/-! ## The unfolding equation of `stoi` -/

theorem stoiF_congr : ∀ (f₁ f₂ : Nat) (s : List Char),
    s.length < f₁ → s.length < f₂ → stoiF f₁ s = stoiF f₂ s := by
  intro f₁
  induction f₁ with
  | zero => intro f₂ s h₁ _; omega
  | succ g ih =>
    intro f₂ s h₁ h₂
    match f₂, h₂ with
    | h + 1, h₂ =>
      simp only [stoiF]
      congr 1
      match hrp : removePrefixChars s ['-'] with
      | none => rfl
      | some r =>
        have hlen := removePrefixChars_some_length hrp
        have htr := trim_length_le r
        exact ih h (trim r) (by simp at hlen; omega) (by simp at hlen; omega)

theorem stoi_unfold (s : List Char) :
    stoi s =
      match stoi_minus s with
      | some n => some n
      | none =>
        match stoi_octal s with
        | some n => some n
        | none =>
          match stoi_decimal s with
          | some n => some n
          | none =>
            match stoi_hex s with
            | some n => some n
            | none => stoi_binary s := by
  show stoiF (s.length + 1) s = _
  simp only [stoiF, stoi_minus]
  congr 1
  match hrp : removePrefixChars s ['-'] with
  | none => rfl
  | some r =>
    have hlen := removePrefixChars_some_length hrp
    have htr := trim_length_le r
    show stoiF s.length (trim r) = stoi (trim r)
    exact stoiF_congr _ _ _ (by simp at hlen; omega) (by omega)

/-! ## Characterization of the numeric and register-or-memory matchers -/

theorem number_match_with_iff (expr : List Char) (min max : Int) :
    number_match_with expr min max = true ↔
      ∃ n : Nat, stoi expr = some n ∧ min ≤ (n : Int) ∧ (n : Int) ≤ max := by
  unfold number_match_with
  match h : stoi expr with
  | some v => simp
  | none => simp

theorem rm_match_with_iff (expr : List Char) (p : Register → Bool) (min max : Int) :
    rm_match_with expr p min max = true ↔
      (register_match_with expr p = true ∨
        ∃ d b idx, parse_rm (trim expr) = some (d, b, idx) ∧ p b = true ∧
          (∀ i sc, idx = some (i, sc) → p i = true) ∧ min ≤ d ∧ d ≤ max) := by
  unfold rm_match_with
  by_cases hreg : register_match_with expr p = true
  · simp [hreg]
  · rw [if_neg (by simpa using hreg)]
    match hp : parse_rm (trim expr) with
    | none => simp [hreg]
    | some (d, b, idx) =>
      constructor
      · intro h
        rw [Bool.and_eq_true, Bool.and_eq_true, Bool.and_eq_true] at h
        obtain ⟨⟨hb, hidx⟩, h1, h2⟩ := h
        rw [decide_eq_true_eq] at h1 h2
        refine Or.inr ⟨d, b, idx, rfl, hb, ?_, h1, h2⟩
        intro i sc hi
        rw [hi] at hidx
        exact hidx
      · rintro (habs | ⟨d1, b1, idx1, heq, hb, hall, h1, h2⟩)
        · exact absurd habs hreg
        · cases heq
          rw [Bool.and_eq_true, Bool.and_eq_true, Bool.and_eq_true]
          refine ⟨⟨hb, ?_⟩, by simpa using h1, by simpa using h2⟩
          cases idx with
          | none => rfl
          | some pr => exact hall pr.1 pr.2 rfl

/-! ## Claim C2 -/

/-- C2: the claim asserts that `OperandType::Rm32.match_with` accepts
the token `0[rax,rbx,4]`.  It does not: `rm_match_with` applies the
32-bit width predicate to the base and index registers of a memory
operand, and `rax`/`rbx` are 64-bit registers. -/
theorem rm32_rejects_mem_with_64bit_base :
    OperandType.match_with .Rm32 "0[rax,rbx,4]".toList = false := by decide

/-- C2 (amended): a memory-expression token matches `Rm8/16/32/64`
exactly when its base register (and index register, if present)
satisfies the width predicate of that operand width and its
displacement lies in the signed range of that width; consequently
`Rm32` accepts exactly the 32-bit bare register names, rejects the
64-bit ones, rejects `0[rax,rbx,3]` (bad scale), and also rejects
`0[rax,rbx,4]` (64-bit base and index), which `Rm64` accepts. -/
theorem rm_match_characterization :
    (∀ (expr : List Char) (p : Register → Bool) (min max : Int),
      rm_match_with expr p min max = true ↔
        (register_match_with expr p = true ∨
          ∃ d b idx, parse_rm (trim expr) = some (d, b, idx) ∧ p b = true ∧
            (∀ i sc, idx = some (i, sc) → p i = true) ∧ min ≤ d ∧ d ≤ max)) ∧
    (∀ r : Register, OperandType.match_with .Rm32 (reg_name r) = r.is_32bit) ∧
    OperandType.match_with .Rm32 "0[rax,rbx,4]".toList = false ∧
    OperandType.match_with .Rm64 "0[rax,rbx,4]".toList = true ∧
    OperandType.match_with .Rm32 "0[rax,rbx,3]".toList = false ∧
    OperandType.match_with .Rm64 "0[rax,rbx,3]".toList = false := by
  refine ⟨rm_match_with_iff, by decide, by decide, by decide, by decide, by decide⟩

/-! ## Claim C4 -/

/-- C4: the claim asserts that `Imm8.match_with` rejects `-129`.  It
does not: `stoi` strips the sign and returns the magnitude `129`,
which lies inside `[-128, 255]`. -/
theorem imm8_accepts_neg129 :
    OperandType.match_with .Imm8 "-129".toList = true := by decide

/-- C4 (amended): for each width, `Imm<w>` accepts exactly the tokens
whose `stoi`-parsed magnitude (minus signs are stripped, never
negated) is at most the unsigned maximum of the width; the lower bound
of the range is vacuous since the magnitude is non-negative.  The
boundary tokens behave as claimed except `-129`, which is accepted. -/
theorem imm_match_magnitude :
    (∀ expr : List Char,
      (OperandType.match_with .Imm8 expr = true ↔
        ∃ n, stoi expr = some n ∧ n ≤ 255) ∧
      (OperandType.match_with .Imm16 expr = true ↔
        ∃ n, stoi expr = some n ∧ n ≤ 65535) ∧
      (OperandType.match_with .Imm32 expr = true ↔
        ∃ n, stoi expr = some n ∧ n ≤ 4294967295) ∧
      (OperandType.match_with .Imm64 expr = true ↔
        ∃ n, stoi expr = some n ∧ n ≤ 18446744073709551615)) ∧
    OperandType.match_with .Imm8 "-128".toList = true ∧
    OperandType.match_with .Imm8 "255".toList = true ∧
    OperandType.match_with .Imm8 "256".toList = false ∧
    OperandType.match_with .Imm8 "-129".toList = true := by
  refine ⟨fun expr => ⟨?_, ?_, ?_, ?_⟩, by decide, by decide, by decide, by decide⟩ <;>
  · show number_match_with expr _ _ = true ↔ _
    rw [number_match_with_iff]
    constructor
    · rintro ⟨n, hn, _, hle⟩
      exact ⟨n, hn, by omega⟩
    · rintro ⟨n, hn, hle⟩
      exact ⟨n, hn, by omega, by omega⟩

/-! ## Claim C5 -/

/-- C5: the claim asserts that `stoi` returns `None` on the empty
string.  It does not: the digit-accumulation loop of `stoi_helper`
accepts the empty digit string with accumulator `0`, so the decimal
branch returns `Some(0)`. -/
theorem stoi_empty_is_some_zero : stoi ([] : List Char) = some 0 := by decide

/-- C5 (amended): `stoi` returns `Some(0)` on the empty string and on
every input consisting of a bare radix prefix with zero digits after
it, because `stoi_helper` maps the empty digit string to `0`. -/
theorem stoi_empty_and_bare_prefixes :
    stoi ([] : List Char) = some 0 ∧
    stoi "0x".toList = some 0 ∧
    stoi "0o".toList = some 0 ∧
    stoi "0b".toList = some 0 := by
  refine ⟨by decide, by decide, by decide, by decide⟩

/-! ## Claim C6 -/

/-- C6: `stoi` at the decimal literal one past `usize::MAX`.  The
multiplication of the last accumulation step is overflow-checked, but
the final digit addition is not (`num += i` in the source): the value
`2^64` wraps to `0` and `stoi` returns `Some(0)` instead of `None`
(in a debug build the addition panics). -/
theorem stoi_wraps_past_usize_max :
    stoi "18446744073709551616".toList = some 0 ∧
    stoi "18446744073709551615".toList = some 18446744073709551615 := by
  refine ⟨by decide, by decide⟩

/-! ## Claim C7 -/

/-- C7: the claim asserts that `parse_rm` fails on every input whose
bracketed interior has four or more comma-separated fields.  It does
not: after the scale field is read, the remaining fields are never
examined. -/
theorem parse_rm_accepts_four_fields :
    parse_rm "0[rax,rbx,4,rcx]".toList ≠ none := by decide

/- The amended theorem for C7, `parse_rm_ignores_extra_fields`, needs
the formatter and splitting lemmas developed below for C3 and is
stated after them. -/

/-! ## Claim C8 -/

theorem splitOnChar_ne_nil (sep : Char) (s : List Char) : splitOnChar sep s ≠ [] := by
  induction s with
  | nil => simp [splitOnChar]
  | cons c t ih =>
    simp only [splitOnChar]
    by_cases h : c = sep
    · simp [h]
    · simp only [h, if_false]
      match hsp : splitOnChar sep t with
      | [] => simp
      | h1 :: t1 => simp

/-- C8: `Line::split_instruction` returns `none` on every variant other
than `Instruction`; on an `Instruction` it trims the text, splits on
single spaces, fails when four or more tokens result, and otherwise
returns the first token as the mnemonic and the next up to two tokens
as the operands.  In particular `mov rax rbx rcx` yields `none`. -/
theorem split_instruction_spec :
    Line.split_instruction Line.None = none ∧
    (∀ s, Line.split_instruction (Line.Label s) = none) ∧
    (∀ s, Line.split_instruction (Line.AsmCommand s) = none) ∧
    (∀ s, Line.split_instruction (Line.Unknown s) = none) ∧
    (∀ s : List Char,
      Line.split_instruction (Line.Instruction s) =
        if 4 ≤ (splitOnChar ' ' (trim s)).length then none
        else some ((splitOnChar ' ' (trim s)).headI,
          ((splitOnChar ' ' (trim s)).get? 1, (splitOnChar ' ' (trim s)).get? 2))) ∧
    Line.split_instruction (Line.Instruction "mov rax rbx rcx".toList) = none := by
  refine ⟨rfl, fun s => rfl, fun s => rfl, fun s => rfl, fun s => ?_, by decide⟩
  simp only [Line.split_instruction]
  match hsp : splitOnChar ' ' (trim s) with
  | [] => exact absurd hsp (splitOnChar_ne_nil ' ' (trim s))
  | [m] => rfl
  | [m, o1] => rfl
  | [m, o1, o2] => rfl
  | m :: o1 :: o2 :: x :: xs =>
    have h4 : 4 ≤ (m :: o1 :: o2 :: x :: xs).length := by
      simp [List.length_cons]
    rw [if_pos h4]

/-! ## Claim C1 -/

/-- Spec-worded matching predicate (spec §4.5), stated independently of
the code for comparison with `Instruction.match_with`: the mnemonic
must equal the line's first token, and for each of the two operand
slots that the entry declares as `Some(type)` the corresponding input
token must exist and satisfy that type; slots declared `None` impose no
condition on the input. -/
def matches_spec (i : Instruction) (line : Line) : Prop :=
  line.mnemonic = some i.expression.mnemonic ∧
  ∃ ops, line.operands = some ops ∧
    (∀ t, i.expression.operands.1 = some t →
      ∃ tok, ops.1 = some tok ∧ t.match_with tok = true) ∧
    (∀ t, i.expression.operands.2 = some t →
      ∃ tok, ops.2 = some tok ∧ t.match_with tok = true)

theorem slot_match_iff (ot : Option OperandType) (tok? : Option (List Char)) :
    slot_match ot tok? = true ↔
      ∀ t, ot = some t → ∃ tok, tok? = some tok ∧ t.match_with tok = true := by
  cases ot with
  | none => simp [slot_match]
  | some t =>
    cases tok? with
    | none => simp [slot_match]
    | some tok => simp [slot_match]

theorem match_with_iff (i : Instruction) (line : Line) :
    i.match_with line = true ↔ matches_spec i line := by
  unfold Instruction.match_with Expression.match_with Expression.mnemonic_match_with
    Expression.operands_match_with matches_spec
  rw [Bool.and_eq_true]
  cases hops : line.operands with
  | none => simp
  | some ops =>
    simp [slot_match_iff, Bool.and_eq_true]

theorem find?_eq_some_iff_first {α : Type} (p : α → Bool) :
    ∀ (l : List α) (x : α),
      l.find? p = some x ↔
        ∃ n, l.get? n = some x ∧ p x = true ∧
          ∀ m, m < n → ∀ y, l.get? m = some y → p y = false := by
  intro l
  induction l with
  | nil => intro x; simp
  | cons a t ih =>
    intro x
    by_cases hpa : p a = true
    · rw [List.find?_cons_of_pos _ hpa]
      constructor
      · intro h
        obtain rfl : a = x := by simpa using h
        exact ⟨0, rfl, hpa, fun m hm => absurd hm (Nat.not_lt_zero m)⟩
      · rintro ⟨n, hget, hpx, hmin⟩
        cases n with
        | zero =>
          have hax : a = x := by simpa using hget
          rw [hax]
        | succ n =>
          have h0 := hmin 0 (Nat.succ_pos n) a rfl
          rw [hpa] at h0
          cases h0
    · rw [List.find?_cons_of_neg _ hpa, ih]
      constructor
      · rintro ⟨n, hget, hpx, hmin⟩
        refine ⟨n + 1, by simpa using hget, hpx, ?_⟩
        intro m hm y hy
        cases m with
        | zero =>
          obtain rfl : a = y := by simpa using hy
          exact Bool.eq_false_iff.mpr hpa
        | succ m => exact hmin m (Nat.lt_of_succ_lt_succ hm) y (by simpa using hy)
      · rintro ⟨n, hget, hpx, hmin⟩
        cases n with
        | zero =>
          obtain rfl : a = x := by simpa using hget
          exact absurd hpx hpa
        | succ n =>
          refine ⟨n, by simpa using hget, hpx, ?_⟩
          intro m hm y hy
          exact hmin (m + 1) (Nat.succ_lt_succ hm) y (by simpa using hy)

/-- C1: `Line::get_instruction` scans the static instruction table in
declared order and returns exactly the first entry whose mnemonic
equals the line's first token and whose every `Some(type)` operand slot
is satisfied by the corresponding input token via
`OperandType::match_with`; slots declared `None` impose no condition,
and no later entry is returned when an earlier one matches. -/
theorem get_instruction_first_match :
    ∀ (line : Line) (i : Instruction),
      Line.get_instruction line = some i ↔
        ∃ n, INSTRUCTION_LIST.get? n = some i ∧ matches_spec i line ∧
          ∀ m, m < n → ∀ j, INSTRUCTION_LIST.get? m = some j → ¬ matches_spec j line := by
  intro line i
  rw [Line.get_instruction, find?_eq_some_iff_first]
  constructor
  · rintro ⟨n, hget, hpi, hmin⟩
    refine ⟨n, hget, (match_with_iff i line).mp hpi, ?_⟩
    intro m hm j hj hspec
    have hfalse := hmin m hm j hj
    rw [(match_with_iff j line).mpr hspec] at hfalse
    cases hfalse
  · rintro ⟨n, hget, hspec, hmin⟩
    refine ⟨n, hget, (match_with_iff i line).mpr hspec, ?_⟩
    intro m hm y hy
    exact Bool.eq_false_iff.mpr (fun hc => hmin m hm y hy ((match_with_iff y line).mp hc))

/-! ## Claim C9 -/

/-- C9: whenever the immediate-slot chain of `Line::imm_operand`
selects a token, `imm_operand` returns `Relocation::Value(n)` when the
token parses as a numeric literal `n` via `stoi`, otherwise
`Relocation::Label(token)` when the keyword predicate accepts the
token, and `none` when neither succeeds. -/
theorem imm_operand_spec :
    ∀ (line : Line) (tok : List Char),
      Line.imm_operand_token line = some tok →
      Line.imm_operand line =
        match stoi tok with
        | some n => some (Relocation.Value n)
        | none => if is_keyword tok then some (Relocation.Label tok) else none := by
  intro line tok h
  unfold Line.imm_operand
  rw [h]

/-- Witness for C9: the line `mov rax 1000` matches `MOV R64 Imm64`,
its immediate slot holds the token `1000`, and `imm_operand` resolves
it to `Relocation::Value(1000)`. -/
theorem imm_operand_spec_witness :
    Line.imm_operand_token (Line.Instruction "mov rax 1000".toList) = some "1000".toList ∧
    Line.imm_operand (Line.Instruction "mov rax 1000".toList) =
      some (Relocation.Value 1000) := by
  refine ⟨by decide, ?_⟩
  have h := imm_operand_spec (Line.Instruction "mov rax 1000".toList) "1000".toList (by decide)
  exact h.trans (by decide)

/-! ## Lemmas about `removePrefixChars` on explicit heads -/

theorem removePrefixChars_cons (c : Char) (s : List Char) :
    removePrefixChars (c :: s) [c] = some s := by
  simp [removePrefixChars]

theorem removePrefixChars_single_ne {c d : Char} (s : List Char) (h : c ≠ d) :
    removePrefixChars (c :: s) [d] = none := by
  simp [removePrefixChars, h]

theorem removePrefixChars_pair_ne {c d e : Char} (s : List Char) (h : c ≠ d) :
    removePrefixChars (c :: s) [d, e] = none := by
  unfold removePrefixChars
  by_cases hl : ([d, e] : List Char).length ≤ (c :: s).length
  · have hne : ¬((c :: s).take ([d, e] : List Char).length = [d, e]) := by
      intro habs
      rw [show ([d, e] : List Char).length = 2 from rfl, List.take_succ_cons] at habs
      injection habs with h1 _
      exact h h1
    rw [if_pos hl, if_neg hne]
  · rw [if_neg hl]

/-! ## Whitespace lemmas for the numeric parser -/

theorem ws_cases {c : Char} (h : is_whitespace_char c = true) :
    c = ' ' ∨ c = '\t' ∨ c = '\n' ∨ c = '\r' := by
  simp [is_whitespace_char] at h
  tauto

theorem go_mem_digit {digits : List Char} :
    ∀ (s : List Char) (num m : Nat), stoi_helper_go digits num s = some m →
      ∀ c ∈ s, (digit_index digits (to_ascii_lowercase c)).isSome = true := by
  intro s
  induction s with
  | nil =>
    intro num m h c hc
    exact absurd hc (List.not_mem_nil c)
  | cons a t ih =>
    intro num m h c hc
    unfold stoi_helper_go at h
    split at h
    · cases hd : digit_index digits (to_ascii_lowercase a) with
      | none => rw [hd] at h; cases h
      | some i =>
        rw [hd] at h
        rcases List.mem_cons.mp hc with rfl | hmem
        · rw [hd]; rfl
        · exact ih _ _ h c hmem
    · cases h

theorem stoi_prefixed_no_ws {digits : List Char} {p q : Char}
    (hp : is_whitespace_char p = false) (hq : is_whitespace_char q = false)
    (hws : ∀ c, is_whitespace_char c = true →
      digit_index digits (to_ascii_lowercase c) = none)
    {s r : List Char} {n : Nat}
    (hrp : removePrefixChars s [p, q] = some r)
    (hh : stoi_helper r digits = some n) :
    ∀ c ∈ s, is_whitespace_char c = false := by
  obtain ⟨hle, htake, hdrop⟩ := removePrefixChars_some hrp
  intro c hc
  have hsplit := List.take_append_drop ([p, q] : List Char).length s
  rw [← hsplit] at hc
  rcases List.mem_append.mp hc with hc1 | hc2
  · rw [htake] at hc1
    rcases List.mem_cons.mp hc1 with rfl | hc1m
    · exact hp
    · rcases List.mem_cons.mp hc1m with rfl | hc1mm
      · exact hq
      · exact absurd hc1mm (List.not_mem_nil c)
  · rw [← hdrop] at hc2
    by_contra habs
    rw [Bool.not_eq_false] at habs
    have hsome := go_mem_digit r 0 n hh c hc2
    rw [hws c habs] at hsome
    simp at hsome

theorem ws_not_dec_digit {c : Char} (h : is_whitespace_char c = true) :
    digit_index dec_digits
      (to_ascii_lowercase c) = none := by
  rcases ws_cases h with rfl | rfl | rfl | rfl <;> decide

theorem ws_not_oct_digit {c : Char} (h : is_whitespace_char c = true) :
    digit_index oct_digits
      (to_ascii_lowercase c) = none := by
  rcases ws_cases h with rfl | rfl | rfl | rfl <;> decide

theorem ws_not_hex_digit {c : Char} (h : is_whitespace_char c = true) :
    digit_index hex_digits (to_ascii_lowercase c) = none := by
  rcases ws_cases h with rfl | rfl | rfl | rfl <;> decide

theorem ws_not_bin_digit {c : Char} (h : is_whitespace_char c = true) :
    digit_index bin_digits (to_ascii_lowercase c) = none := by
  rcases ws_cases h with rfl | rfl | rfl | rfl <;> decide

theorem stoi_some_no_ws {c0 : Char} {t : List Char} {n : Nat}
    (hc0 : c0 ≠ '-') (h : stoi (c0 :: t) = some n) :
    ∀ c ∈ c0 :: t, is_whitespace_char c = false := by
  rw [stoi_unfold] at h
  have hminus : stoi_minus (c0 :: t) = none := by
    unfold stoi_minus
    rw [removePrefixChars_single_ne t hc0]
  rw [hminus] at h
  have h1 : (match stoi_octal (c0 :: t) with
             | some k => some k
             | none =>
               match stoi_decimal (c0 :: t) with
               | some k => some k
               | none =>
                 match stoi_hex (c0 :: t) with
                 | some k => some k
                 | none => stoi_binary (c0 :: t)) = some n := h
  cases ho : stoi_octal (c0 :: t) with
  | some m =>
    unfold stoi_octal at ho
    cases hrp : removePrefixChars (c0 :: t) ['0', 'o'] with
    | none => rw [hrp] at ho; cases ho
    | some r =>
      rw [hrp] at ho
      exact stoi_prefixed_no_ws (by decide) (by decide)
        (fun c hc => ws_not_oct_digit hc) hrp ho
  | none =>
    rw [ho] at h1
    have h2 : (match stoi_decimal (c0 :: t) with
               | some k => some k
               | none =>
                 match stoi_hex (c0 :: t) with
                 | some k => some k
                 | none => stoi_binary (c0 :: t)) = some n := h1
    cases hd : stoi_decimal (c0 :: t) with
    | some m =>
      unfold stoi_decimal at hd
      intro c hc
      by_contra habs
      rw [Bool.not_eq_false] at habs
      have hsome := go_mem_digit (c0 :: t) 0 m hd c hc
      rw [ws_not_dec_digit habs] at hsome
      simp at hsome
    | none =>
      rw [hd] at h2
      have h3 : (match stoi_hex (c0 :: t) with
                 | some k => some k
                 | none => stoi_binary (c0 :: t)) = some n := h2
      cases hx : stoi_hex (c0 :: t) with
      | some m =>
        unfold stoi_hex at hx
        cases hrp : removePrefixChars (c0 :: t) ['0', 'x'] with
        | none => rw [hrp] at hx; cases hx
        | some r =>
          rw [hrp] at hx
          exact stoi_prefixed_no_ws (by decide) (by decide)
            (fun c hc => ws_not_hex_digit hc) hrp hx
      | none =>
        rw [hx] at h3
        have h4 : stoi_binary (c0 :: t) = some n := h3
        unfold stoi_binary at h4
        cases hrp : removePrefixChars (c0 :: t) ['0', 'b'] with
        | none => rw [hrp] at h4; cases h4
        | some r =>
          rw [hrp] at h4
          exact stoi_prefixed_no_ws (by decide) (by decide)
            (fun c hc => ws_not_bin_digit hc) hrp h4

/-! ## Trim lemmas -/

theorem trimLeft_cons_not_ws {c : Char} (t : List Char)
    (h : is_whitespace_char c = false) : trimLeft (c :: t) = c :: t := by
  simp [trimLeft, List.dropWhile, h]

theorem trimLeft_cons_ws {c : Char} (t : List Char)
    (h : is_whitespace_char c = true) : trimLeft (c :: t) = trimLeft t := by
  simp [trimLeft, List.dropWhile, h]

theorem trimRight_cons (c : Char) (t : List Char) :
    trimRight (c :: t) =
      match trimRight t with
      | [] => if is_whitespace_char c then [] else [c]
      | r :: rs => c :: r :: rs := rfl

theorem trimRight_cons_not_ws {c : Char} (t : List Char)
    (h : is_whitespace_char c = false) : trimRight (c :: t) = c :: trimRight t := by
  rw [trimRight_cons]
  cases htr : trimRight t with
  | nil => simp [h]
  | cons r rs => rfl

theorem trimLeft_trimRight_comm (s : List Char) :
    trimLeft (trimRight s) = trimRight (trimLeft s) := by
  induction s with
  | nil => rfl
  | cons c t ih =>
    by_cases hws : is_whitespace_char c = true
    · cases htr : trimRight t with
      | nil =>
        have hR : trimRight (c :: t) = [] := by
          rw [trimRight_cons, htr, if_pos hws]
        have hL : trimLeft (c :: t) = trimLeft t := trimLeft_cons_ws t hws
        rw [hR, hL, ← ih, htr]
      | cons r rs =>
        have hR : trimRight (c :: t) = c :: r :: rs := by
          rw [trimRight_cons, htr]
        have hL : trimLeft (c :: t) = trimLeft t := trimLeft_cons_ws t hws
        rw [hR, hL, ← ih, htr]
        exact trimLeft_cons_ws (r :: rs) hws
    · rw [Bool.not_eq_true] at hws
      calc trimLeft (trimRight (c :: t))
          = trimLeft (c :: trimRight t) := by rw [trimRight_cons_not_ws t hws]
        _ = c :: trimRight t := trimLeft_cons_not_ws _ hws
        _ = trimRight (c :: t) := (trimRight_cons_not_ws t hws).symm
        _ = trimRight (trimLeft (c :: t)) := by rw [trimLeft_cons_not_ws t hws]

theorem trimRight_idem (s : List Char) : trimRight (trimRight s) = trimRight s := by
  induction s with
  | nil => rfl
  | cons c t ih =>
    cases htr : trimRight t with
    | nil =>
      by_cases hws : is_whitespace_char c = true
      · have hcons : trimRight (c :: t) = [] := by
          rw [trimRight_cons, htr, if_pos hws]
        rw [hcons]
        rfl
      · rw [Bool.not_eq_true] at hws
        have hcons : trimRight (c :: t) = [c] := by
          rw [trimRight_cons, htr]
          simp [hws]
        rw [hcons, trimRight_cons]
        simp [hws, trimRight]
    | cons r rs =>
      have hcons : trimRight (c :: t) = c :: r :: rs := by
        rw [trimRight_cons, htr]
      rw [htr] at ih
      rw [hcons, trimRight_cons, ih]

theorem trim_trimRight (s : List Char) : trim (trimRight s) = trim s := by
  unfold trim
  rw [trimLeft_trimRight_comm, trimRight_idem, ← trimLeft_trimRight_comm,
    trimLeft_trimRight_comm]

theorem trimRight_eq_of_no_ws {s : List Char}
    (h : ∀ c ∈ s, is_whitespace_char c = false) : trimRight s = s := by
  induction s with
  | nil => rfl
  | cons c t ih =>
    have ht : trimRight t = t := ih (fun c hc => h c (List.mem_cons_of_mem _ hc))
    exact (trimRight_cons_not_ws t (h c (List.mem_cons_self c t))).trans (by rw [ht])

theorem trim_eq_of_no_ws {s : List Char}
    (h : ∀ c ∈ s, is_whitespace_char c = false) : trim s = s := by
  unfold trim
  cases s with
  | nil => rfl
  | cons c t =>
    rw [trimLeft_cons_not_ws t (h c (List.mem_cons_self c t))]
    exact trimRight_eq_of_no_ws h

/-! ## Claim C10 -/

theorem stoi_cons_minus (s : List Char) : stoi ('-' :: s) = stoi (trim s) := by
  rw [stoi_unfold]
  have hm : stoi_minus ('-' :: s) = stoi (trim s) := by
    unfold stoi_minus
    rw [removePrefixChars_cons]
  rw [hm]
  cases hval : stoi (trim s) with
  | some n => rfl
  | none =>
    have h1 : stoi_octal ('-' :: s) = none := by
      unfold stoi_octal
      rw [removePrefixChars_pair_ne s (by decide)]
    have h2 : stoi_decimal ('-' :: s) = none := rfl
    have h3 : stoi_hex ('-' :: s) = none := by
      unfold stoi_hex
      rw [removePrefixChars_pair_ne s (by decide)]
    have h4 : stoi_binary ('-' :: s) = none := by
      unfold stoi_binary
      rw [removePrefixChars_pair_ne s (by decide)]
    simp [h1, h2, h3, h4]

theorem stoi_trim_invariant {s : List Char} {n : Nat} (h : stoi s = some n) :
    stoi (trim s) = some n := by
  cases s with
  | nil => exact h
  | cons c t =>
    by_cases hc : c = '-'
    · subst hc
      rw [stoi_cons_minus] at h
      have htrim : trim ('-' :: t) = '-' :: trimRight t := by
        unfold trim
        rw [trimLeft_cons_not_ws t (by decide), trimRight_cons_not_ws t (by decide)]
      rw [htrim, stoi_cons_minus, trim_trimRight]
      exact h
    · have hnws := stoi_some_no_ws hc h
      rw [trim_eq_of_no_ws hnws]
      exact h

/-- C10: `stoi` strips any number of leading minus signs, each
optionally followed by whitespace, and returns the unsigned magnitude
of the remaining literal: prefixing a parseable string with `-` does
not change the result, and `--5` and `- 5` both parse to `Some(5)`. -/
theorem stoi_minus_strip :
    (∀ (s : List Char) (n : Nat), stoi s = some n → stoi ('-' :: s) = some n) ∧
    stoi "--5".toList = some 5 ∧
    stoi "- 5".toList = some 5 := by
  refine ⟨?_, by decide, by decide⟩
  intro s n h
  rw [stoi_cons_minus]
  exact stoi_trim_invariant h

/-- Witness for C10 at the concrete input `5`. -/
theorem stoi_minus_strip_witness : stoi "-5".toList = some 5 := by
  have h := stoi_minus_strip.1 "5".toList 5 (by decide)
  exact h

/-! ## Decimal formatter and its round trip through `stoi` (for C3) -/

/-- Fuel-indexed decimal formatter; the fuel (one more than the number)
only makes the recursion structural. -/
def fmt_natF : Nat → Nat → List Char
  | 0, _ => []
  | f + 1, n => if n < 10 then [Nat.digitChar n] else fmt_natF f (n / 10) ++ [Nat.digitChar (n % 10)]

/-- Modelled from the spec: the round-trip property of §8 formats a
displacement in decimal; this is the standard decimal formatter. -/
def fmt_nat (n : Nat) : List Char := fmt_natF (n + 1) n

theorem fmt_natF_congr : ∀ (f g n : Nat), n < f → n < g → fmt_natF f n = fmt_natF g n := by
  intro f
  induction f with
  | zero => intro g n hf; omega
  | succ f' ih =>
    intro g n hf hg
    match g, hg with
    | g' + 1, hg =>
      simp only [fmt_natF]
      by_cases h10 : n < 10
      · rw [if_pos h10, if_pos h10]
      · rw [if_neg h10, if_neg h10]
        congr 1
        exact ih g' (n / 10) (by omega) (by omega)

theorem fmt_nat_unfold (n : Nat) :
    fmt_nat n =
      if n < 10 then [Nat.digitChar n]
      else fmt_nat (n / 10) ++ [Nat.digitChar (n % 10)] := by
  show fmt_natF (n + 1) n = _
  simp only [fmt_natF]
  by_cases h10 : n < 10
  · rw [if_pos h10, if_pos h10]
  · rw [if_neg h10, if_neg h10]
    congr 1
    exact fmt_natF_congr n (n / 10 + 1) (n / 10) (by omega) (by omega)

theorem digitChar_mem_dec {k : Nat} (hk : k < 10) :
    Nat.digitChar k ∈ dec_digits := by
  interval_cases k <;> decide

theorem fmt_nat_all_digits :
    ∀ n, ∀ c ∈ fmt_nat n, c ∈ dec_digits := by
  intro n
  induction n using Nat.strong_induction_on with
  | _ n ih =>
    rw [fmt_nat_unfold]
    by_cases h10 : n < 10
    · rw [if_pos h10]
      intro c hc
      rw [List.mem_singleton] at hc
      exact hc ▸ digitChar_mem_dec h10
    · rw [if_neg h10]
      intro c hc
      rcases List.mem_append.mp hc with hc1 | hc2
      · exact ih (n / 10) (by omega) c hc1
      · rw [List.mem_singleton] at hc2
        exact hc2 ▸ digitChar_mem_dec (Nat.mod_lt n (by omega))

theorem fmt_nat_ne_nil (n : Nat) : fmt_nat n ≠ [] := by
  rw [fmt_nat_unfold]
  by_cases h10 : n < 10
  · rw [if_pos h10]; simp
  · rw [if_neg h10]; simp

theorem stoi_helper_go_cons (digits : List Char) (num : Nat) (c : Char) (rest : List Char) :
    stoi_helper_go digits num (c :: rest) =
      if num * digits.length < usizeMod then
        match digit_index digits (to_ascii_lowercase c) with
        | some i => stoi_helper_go digits ((num * digits.length + i) % usizeMod) rest
        | none => none
      else none := rfl

theorem stoi_helper_go_append (digits : List Char) :
    ∀ (xs ys : List Char) (num : Nat),
      stoi_helper_go digits num (xs ++ ys) =
        match stoi_helper_go digits num xs with
        | some m => stoi_helper_go digits m ys
        | none => none := by
  intro xs
  induction xs with
  | nil => intro ys num; rfl
  | cons a t ih =>
    intro ys num
    rw [List.cons_append, stoi_helper_go_cons, stoi_helper_go_cons]
    by_cases hmul : num * digits.length < usizeMod
    · rw [if_pos hmul, if_pos hmul]
      cases hd : digit_index digits (to_ascii_lowercase a) with
      | none => rfl
      | some i => exact ih ys _
    · rw [if_neg hmul, if_neg hmul]

theorem digit_index_digitChar {k : Nat} (hk : k < 10) :
    digit_index dec_digits
      (to_ascii_lowercase (Nat.digitChar k)) = some k := by
  interval_cases k <;> decide

theorem go_fmt : ∀ n : Nat, n < usizeMod →
    stoi_helper_go dec_digits 0 (fmt_nat n) =
      some n := by
  intro n
  induction n using Nat.strong_induction_on with
  | _ n ih =>
    intro hlt
    have husz : usizeMod = 18446744073709551616 := rfl
    rw [fmt_nat_unfold]
    by_cases h10 : n < 10
    · rw [if_pos h10, stoi_helper_go_cons, if_pos (by decide), digit_index_digitChar h10]
      show stoi_helper_go dec_digits
        ((0 * List.length dec_digits + n) % usizeMod)
        [] = some n
      have hmod : (0 * List.length dec_digits + n) %
          usizeMod = n := by
        simp only [Nat.zero_mul, Nat.zero_add]
        exact Nat.mod_eq_of_lt hlt
      rw [hmod]
      rfl
    · rw [if_neg h10, stoi_helper_go_append,
        ih (n / 10) (Nat.div_lt_self (by omega) (by omega)) (by omega)]
      show stoi_helper_go dec_digits (n / 10)
        [Nat.digitChar (n % 10)] = some n
      rw [stoi_helper_go_cons]
      have hlen : List.length dec_digits = 10 := rfl
      rw [if_pos (by rw [hlen, husz]; rw [husz] at hlt; omega),
        digit_index_digitChar (Nat.mod_lt n (by omega))]
      show stoi_helper_go dec_digits
        ((n / 10 * List.length dec_digits + n % 10) %
          usizeMod) [] = some n
      have hmod : (n / 10 * List.length dec_digits +
          n % 10) % usizeMod = n := by
        rw [hlen, husz]
        rw [husz] at hlt
        omega
      rw [hmod]
      rfl

theorem removePrefixChars_pair_ne2 {c c2 d e : Char} (s : List Char) (h : c2 ≠ e) :
    removePrefixChars (c :: c2 :: s) [d, e] = none := by
  unfold removePrefixChars
  rw [if_pos (by simp)]
  rw [if_neg]
  intro habs
  rw [show ([d, e] : List Char).length = 2 from rfl, List.take_succ_cons,
    List.take_succ_cons] at habs
  injection habs with h1 h2
  injection h2 with h2 _
  exact h h2

theorem stoi_fmt {n : Nat} (h : n < usizeMod) : stoi (fmt_nat n) = some n := by
  obtain ⟨c, cs, hcons, hcdig⟩ :
      ∃ c cs, fmt_nat n = c :: cs ∧ c ∈ dec_digits := by
    cases hf : fmt_nat n with
    | nil => exact absurd hf (fmt_nat_ne_nil n)
    | cons c cs => exact ⟨c, cs, rfl, fmt_nat_all_digits n c (hf ▸ List.mem_cons_self c cs)⟩
  rw [stoi_unfold]
  have hminus : stoi_minus (fmt_nat n) = none := by
    rw [hcons]
    unfold stoi_minus
    rw [removePrefixChars_single_ne cs (by fin_cases hcdig <;> decide)]
  have hdec : stoi_decimal (fmt_nat n) = some n := go_fmt n h
  have hoct : stoi_octal (fmt_nat n) = none := by
    rw [hcons]
    unfold stoi_octal
    cases cs with
    | nil => rfl
    | cons c2 cs2 =>
      have hc2 : c2 ∈ dec_digits :=
        fmt_nat_all_digits n c2
          (by rw [hcons]; exact List.mem_cons_of_mem _ (List.mem_cons_self _ _))
      rw [removePrefixChars_pair_ne2 cs2 (by fin_cases hc2 <;> decide)]
  rw [hminus, hoct, hdec]

/-! ## Splitting lemmas (for C3) -/

theorem split_once_append {sep : Char} {a : List Char} (b : List Char) (h : sep ∉ a) :
    split_once sep (a ++ sep :: b) = some (a, b) := by
  induction a with
  | nil => simp [split_once]
  | cons x xs ih =>
    have hx : x ≠ sep := fun heq => h (heq ▸ List.mem_cons_self x xs)
    rw [List.cons_append]
    show (if x = sep then some ([], xs ++ sep :: b)
          else
            match split_once sep (xs ++ sep :: b) with
            | some (a, b) => some (x :: a, b)
            | none => none) = some (x :: xs, b)
    rw [if_neg hx, ih (fun hm => h (List.mem_cons_of_mem x hm))]

theorem splitOnChar_not_mem {sep : Char} {a : List Char} (h : sep ∉ a) :
    splitOnChar sep a = [a] := by
  induction a with
  | nil => rfl
  | cons x xs ih =>
    have hx : x ≠ sep := fun heq => h (heq ▸ List.mem_cons_self x xs)
    show (if x = sep then [] :: splitOnChar sep xs
          else
            match splitOnChar sep xs with
            | [] => [[x]]
            | h :: t => (x :: h) :: t) = [x :: xs]
    rw [if_neg hx, ih (fun hm => h (List.mem_cons_of_mem x hm))]

theorem splitOnChar_append_cons {sep : Char} {a : List Char} (b : List Char) (h : sep ∉ a) :
    splitOnChar sep (a ++ sep :: b) = a :: splitOnChar sep b := by
  induction a with
  | nil =>
    show (if sep = sep then [] :: splitOnChar sep b else _) = [] :: splitOnChar sep b
    rw [if_pos rfl]
  | cons x xs ih =>
    have hx : x ≠ sep := fun heq => h (heq ▸ List.mem_cons_self x xs)
    rw [List.cons_append]
    show (if x = sep then [] :: splitOnChar sep (xs ++ sep :: b)
          else
            match splitOnChar sep (xs ++ sep :: b) with
            | [] => [[x]]
            | h :: t => (x :: h) :: t) = (x :: xs) :: splitOnChar sep b
    rw [if_neg hx, ih (fun hm => h (List.mem_cons_of_mem x hm))]

/-! ## Token-shape facts about register names and formatted numbers -/

theorem parse_register_name : ∀ r : Register, parse_register (reg_name r) = some r := by
  decide

theorem reg_name_no_comma : ∀ r : Register, ',' ∉ reg_name r := by decide

theorem reg_name_no_ws : ∀ r : Register, ∀ c ∈ reg_name r, is_whitespace_char c = false := by
  decide

theorem reg_name_ne_nil : ∀ r : Register, reg_name r ≠ [] := by decide

theorem fmt_nat_no_comma (k : Nat) : ',' ∉ fmt_nat k := fun hm =>
  absurd (fmt_nat_all_digits k ',' hm) (by decide)

theorem fmt_nat_no_bracket (k : Nat) : '[' ∉ fmt_nat k := fun hm =>
  absurd (fmt_nat_all_digits k '[' hm) (by decide)

theorem fmt_nat_no_ws (k : Nat) : ∀ c ∈ fmt_nat k, is_whitespace_char c = false := by
  intro c hc
  have h := fmt_nat_all_digits k c hc
  fin_cases h <;> decide

theorem fmt_nat_no_rbracket (k : Nat) : ']' ∉ fmt_nat k := fun hm =>
  absurd (fmt_nat_all_digits k ']' hm) (by decide)

/-! ## Reduction of `parse_rm` on a formatted displacement and bracket -/

theorem parse_rm_fmt_head (d : Nat) (hd : d ≤ 9223372036854775807) (rest : List Char) :
    parse_rm (fmt_nat d ++ '[' :: rest) =
      (if !ends_with ']' (trim rest) then none
       else
         match splitOnChar ',' (trim rest).dropLast with
         | [] => none
         | baseStr :: rest2 =>
           match parse_register baseStr with
           | none => none
           | some base =>
             match rest2 with
             | [] => some ((d : Int), base, none)
             | indexStr :: rest3 =>
               match parse_register indexStr with
               | none => none
               | some index =>
                 match rest3 with
                 | [] => some ((d : Int), base, some (index, 1))
                 | scaleStr :: _ =>
                   match stoi scaleStr with
                   | none => none
                   | some value =>
                     if value = 1 ∨ value = 2 ∨ value = 4 ∨ value = 8 then
                       some ((d : Int), base, some (index, value))
                     else none) := by
  obtain ⟨c, cs, hcons, hcdig⟩ :
      ∃ c cs, fmt_nat d = c :: cs ∧ c ∈ dec_digits := by
    cases hf : fmt_nat d with
    | nil => exact absurd hf (fmt_nat_ne_nil d)
    | cons c cs => exact ⟨c, cs, rfl, fmt_nat_all_digits d c (hf ▸ List.mem_cons_self c cs)⟩
  have hsw : starts_with '[' (fmt_nat d ++ '[' :: rest) = false := by
    rw [hcons, List.cons_append]
    show decide (c = '[') = false
    rw [decide_eq_false (by fin_cases hcdig <;> decide)]
  have hso : split_once '[' (fmt_nat d ++ '[' :: rest) = some (fmt_nat d, rest) :=
    split_once_append rest (fmt_nat_no_bracket d)
  have hdlt : d < usizeMod := by
    have : usizeMod = 18446744073709551616 := rfl
    omega
  unfold parse_rm
  rw [hsw]
  simp only [Bool.not_false, if_true, hso, stoi_fmt hdlt]
  rw [if_pos (by constructor <;> omega)]

/-! ## Claim C3 -/

theorem no_ws_append {a b : List Char} (ha : ∀ c ∈ a, is_whitespace_char c = false)
    (hb : ∀ c ∈ b, is_whitespace_char c = false) :
    ∀ c ∈ a ++ b, is_whitespace_char c = false := by
  intro c hc
  rcases List.mem_append.mp hc with h | h
  exacts [ha c h, hb c h]

theorem no_ws_cons {x : Char} {b : List Char} (hx : is_whitespace_char x = false)
    (hb : ∀ c ∈ b, is_whitespace_char c = false) :
    ∀ c ∈ x :: b, is_whitespace_char c = false := by
  intro c hc
  rcases List.mem_cons.mp hc with rfl | h
  exacts [hx, hb c h]

theorem no_ws_singleton {x : Char} (hx : is_whitespace_char x = false) :
    ∀ c ∈ [x], is_whitespace_char c = false := by
  intro c hc
  rw [List.mem_singleton] at hc
  exact hc ▸ hx

theorem ends_with_concat (a : List Char) (x : Char) : ends_with x (a ++ [x]) = true := by
  unfold ends_with
  rw [List.getLast?_concat]
  simp

theorem ends_with_concat_ne {x y : Char} (a : List Char) (h : y ≠ x) :
    ends_with x (a ++ [y]) = false := by
  unfold ends_with
  rw [List.getLast?_concat]
  simp [h]

/-- C3: the claim includes negative displacements `d` in the round
trip.  They are not recovered: `stoi` strips the minus sign and
returns the magnitude, so the formatted text `-1[rax]` parses to
displacement `+1`, not `-1`. -/
theorem parse_rm_negative_disp :
    parse_rm "-1[rax]".toList = some (1, Register.rax, none) ∧
    parse_rm "-1[rax]".toList ≠ some (-1, Register.rax, none) := by
  refine ⟨by decide, by decide⟩

/-- C3 (amended): for every displacement `d` in `[0, i64::MAX]`, every
register pair and every scale in `{1,2,4,8}`, parsing the formatted
text `d[base,index,scale]` recovers exactly `(d, base, Some((index,
scale)))`; with the index omitted it recovers `(d, base, None)`; a
scale outside `{1,2,4,8}` and a missing closing bracket are each
rejected.  For negative `d` the round trip fails: the minus sign is
stripped, so the parser yields the magnitude (see the
counterexample). -/
theorem parse_rm_round_trip :
    (∀ (d : Nat), d ≤ 9223372036854775807 → ∀ (base index : Register) (scale : Nat),
      (scale = 1 ∨ scale = 2 ∨ scale = 4 ∨ scale = 8) →
      parse_rm (fmt_nat d ++ '[' ::
          ((reg_name base ++ ',' :: (reg_name index ++ ',' :: fmt_nat scale)) ++ [']'])) =
        some ((d : Int), base, some (index, scale))) ∧
    (∀ (d : Nat), d ≤ 9223372036854775807 → ∀ base : Register,
      parse_rm (fmt_nat d ++ '[' :: (reg_name base ++ [']'])) =
        some ((d : Int), base, none)) ∧
    (∀ (d : Nat), d ≤ 9223372036854775807 → ∀ (base index : Register) (scale : Nat),
      scale < usizeMod → ¬(scale = 1 ∨ scale = 2 ∨ scale = 4 ∨ scale = 8) →
      parse_rm (fmt_nat d ++ '[' ::
          ((reg_name base ++ ',' :: (reg_name index ++ ',' :: fmt_nat scale)) ++ [']'])) =
        none) ∧
    (∀ (d : Nat), d ≤ 9223372036854775807 → ∀ (base index : Register) (scale : Nat),
      parse_rm (fmt_nat d ++ '[' ::
          (reg_name base ++ ',' :: (reg_name index ++ ',' :: fmt_nat scale))) = none) := by
  have hs1 : stoi (fmt_nat 1) = some 1 := by decide
  have hs2 : stoi (fmt_nat 2) = some 2 := by decide
  have hs4 : stoi (fmt_nat 4) = some 4 := by decide
  have hs8 : stoi (fmt_nat 8) = some 8 := by decide
  refine ⟨?_, ?_, ?_, ?_⟩
  · intro d hd base index scale hscale
    rw [parse_rm_fmt_head d hd]
    have hnws := no_ws_append
      (no_ws_append (reg_name_no_ws base)
        (no_ws_cons (x := ',') (by decide)
          (no_ws_append (reg_name_no_ws index)
            (no_ws_cons (x := ',') (by decide) (fmt_nat_no_ws scale)))))
      (no_ws_singleton (x := ']') (by decide))
    rw [trim_eq_of_no_ws hnws, ends_with_concat]
    rw [if_neg (by decide), List.dropLast_concat,
      splitOnChar_append_cons _ (reg_name_no_comma base),
      splitOnChar_append_cons _ (reg_name_no_comma index),
      splitOnChar_not_mem (fmt_nat_no_comma scale)]
    rcases hscale with rfl | rfl | rfl | rfl <;>
      simp [parse_register_name, hs1, hs2, hs4, hs8]
  · intro d hd base
    rw [parse_rm_fmt_head d hd]
    have hnws := no_ws_append (reg_name_no_ws base) (no_ws_singleton (x := ']') (by decide))
    rw [trim_eq_of_no_ws hnws, ends_with_concat]
    rw [if_neg (by decide), List.dropLast_concat,
      splitOnChar_not_mem (reg_name_no_comma base)]
    simp [parse_register_name]
  · intro d hd base index scale hslt hsnot
    rw [parse_rm_fmt_head d hd]
    have hnws := no_ws_append
      (no_ws_append (reg_name_no_ws base)
        (no_ws_cons (x := ',') (by decide)
          (no_ws_append (reg_name_no_ws index)
            (no_ws_cons (x := ',') (by decide) (fmt_nat_no_ws scale)))))
      (no_ws_singleton (x := ']') (by decide))
    rw [trim_eq_of_no_ws hnws, ends_with_concat]
    rw [if_neg (by decide), List.dropLast_concat,
      splitOnChar_append_cons _ (reg_name_no_comma base),
      splitOnChar_append_cons _ (reg_name_no_comma index),
      splitOnChar_not_mem (fmt_nat_no_comma scale)]
    simp [parse_register_name, stoi_fmt hslt, hsnot]
  · intro d hd base index scale
    rw [parse_rm_fmt_head d hd]
    have hnws := no_ws_append (reg_name_no_ws base)
      (no_ws_cons (x := ',') (by decide)
        (no_ws_append (reg_name_no_ws index)
          (no_ws_cons (x := ',') (by decide) (fmt_nat_no_ws scale))))
    rw [trim_eq_of_no_ws hnws]
    rcases (fmt_nat scale).eq_nil_or_concat' with hnil | ⟨L, b, hLb⟩
    · exact absurd hnil (fmt_nat_ne_nil scale)
    · have hbdig : b ∈ dec_digits :=
        fmt_nat_all_digits scale b
          (by rw [hLb]; exact List.mem_append.mpr (Or.inr (List.mem_singleton.mpr rfl)))
      have hin : reg_name base ++ ',' :: (reg_name index ++ ',' :: fmt_nat scale) =
          (reg_name base ++ ',' :: (reg_name index ++ ',' :: L)) ++ [b] := by
        rw [hLb]
        simp [List.append_assoc]
      rw [hin, ends_with_concat_ne _ (by fin_cases hbdig <;> decide)]
      rw [if_pos (by decide)]

/-- Witness for C3 (amended) at concrete inputs: `5[rbp,rdi,4]`,
`5[rax]`, `0[rax,rbx,3]` (bad scale), and `0[rax,rbx,4` (missing
bracket). -/
theorem parse_rm_round_trip_witness :
    parse_rm (fmt_nat 5 ++ '[' ::
        ((reg_name .rbp ++ ',' :: (reg_name .rdi ++ ',' :: fmt_nat 4)) ++ [']'])) =
      some (5, .rbp, some (.rdi, 4)) ∧
    parse_rm (fmt_nat 5 ++ '[' :: (reg_name .rax ++ [']'])) = some (5, .rax, none) ∧
    parse_rm (fmt_nat 0 ++ '[' ::
        ((reg_name .rax ++ ',' :: (reg_name .rbx ++ ',' :: fmt_nat 3)) ++ [']'])) = none ∧
    parse_rm (fmt_nat 0 ++ '[' ::
        (reg_name .rax ++ ',' :: (reg_name .rbx ++ ',' :: fmt_nat 4))) = none := by
  refine ⟨parse_rm_round_trip.1 5 (by norm_num) .rbp .rdi 4 (by norm_num),
    parse_rm_round_trip.2.1 5 (by norm_num) .rax,
    parse_rm_round_trip.2.2.1 0 (by norm_num) .rax .rbx 3 (by decide) (by norm_num),
    parse_rm_round_trip.2.2.2 0 (by norm_num) .rax .rbx 4⟩

/-! ## Claim C7, amended theorem -/

theorem trimRight_concat_not_ws {x : Char} (a : List Char)
    (hx : is_whitespace_char x = false) : trimRight (a ++ [x]) = a ++ [x] := by
  induction a with
  | nil =>
    rw [List.nil_append]
    show (if is_whitespace_char x then [] else [x]) = [x]
    rw [if_neg (by simp [hx])]
  | cons c a2 ih =>
    rw [List.cons_append, trimRight_cons, ih]
    obtain ⟨y, ys, hys⟩ : ∃ y ys, a2 ++ [x] = y :: ys := by
      cases h : a2 ++ [x] with
      | nil => exact absurd h (by simp)
      | cons y ys => exact ⟨y, ys, rfl⟩
    rw [hys]

/-- C7 (amended): `parse_rm` never rejects extra comma-separated
fields beyond the third: for every displacement `d` in `[0,
i64::MAX]`, every base and index register, every scale in `{1,2,4,8}`,
and arbitrary trailing text after the third comma — hence any number
of further comma-separated fields, of any content — the parse succeeds
and returns `(d, base, Some((index, scale)))`, because the argument
iterator is never queried after the scale field is read. -/
theorem parse_rm_ignores_extra_fields :
    ∀ (d : Nat), d ≤ 9223372036854775807 → ∀ (base index : Register) (scale : Nat),
      (scale = 1 ∨ scale = 2 ∨ scale = 4 ∨ scale = 8) → ∀ extra : List Char,
      parse_rm (fmt_nat d ++ '[' ::
          ((reg_name base ++ ',' ::
            (reg_name index ++ ',' :: (fmt_nat scale ++ ',' :: extra))) ++ [']'])) =
        some ((d : Int), base, some (index, scale)) := by
  have hs1 : stoi (fmt_nat 1) = some 1 := by decide
  have hs2 : stoi (fmt_nat 2) = some 2 := by decide
  have hs4 : stoi (fmt_nat 4) = some 4 := by decide
  have hs8 : stoi (fmt_nat 8) = some 8 := by decide
  intro d hd base index scale hscale extra
  rw [parse_rm_fmt_head d hd]
  obtain ⟨rc, rcs, hrc⟩ : ∃ rc rcs, reg_name base = rc :: rcs := by
    cases h : reg_name base with
    | nil => exact absurd h (reg_name_ne_nil base)
    | cons a b => exact ⟨a, b, rfl⟩
  have hrcws : is_whitespace_char rc = false :=
    reg_name_no_ws base rc (hrc ▸ List.mem_cons_self rc rcs)
  have htrim : trim ((reg_name base ++ ',' ::
      (reg_name index ++ ',' :: (fmt_nat scale ++ ',' :: extra))) ++ [']']) =
      (reg_name base ++ ',' ::
      (reg_name index ++ ',' :: (fmt_nat scale ++ ',' :: extra))) ++ [']'] := by
    rw [hrc, List.cons_append, List.cons_append]
    unfold trim
    rw [trimLeft_cons_not_ws _ hrcws, ← List.cons_append]
    exact trimRight_concat_not_ws _ (by decide)
  rw [htrim, ends_with_concat, if_neg (by decide), List.dropLast_concat,
    splitOnChar_append_cons _ (reg_name_no_comma base),
    splitOnChar_append_cons _ (reg_name_no_comma index),
    splitOnChar_append_cons _ (fmt_nat_no_comma scale)]
  rcases hscale with rfl | rfl | rfl | rfl <;>
    simp [parse_register_name, hs1, hs2, hs4, hs8]

/-- Witness for C7 (amended) at the concrete input `0[rax,rbx,4,rcx]`. -/
theorem parse_rm_ignores_extra_fields_witness :
    parse_rm (fmt_nat 0 ++ '[' ::
        ((reg_name .rax ++ ',' ::
          (reg_name .rbx ++ ',' :: (fmt_nat 4 ++ ',' :: "rcx".toList))) ++ [']'])) =
      some (0, .rax, some (.rbx, 4)) :=
  parse_rm_ignores_extra_fields 0 (by norm_num) .rax .rbx 4 (by norm_num) "rcx".toList
example : Line.get_instruction (Line.Instruction "add 0[rax,rbx,5] rcx".toList) = none := by decide
example : Line.get_instruction (Line.Instruction "add -8[rbp,rdi,4] rcx".toList) =
    some ⟨⟨[0x01], some .R, none, none, .Od⟩, ⟨"add".toList, (some .Rm64, some .R64)⟩⟩ := by decide
